import Mathlib

/-!
Shallow embedding of `src/auto_dev.py` (the MintLite history generator).

Modelling conventions:

* A `datetime` value is an `Int` counting minutes; a civil date `d` (as parsed
  by `strptime('%Y-%m-%d')`) becomes minute `1440 * d`, midnight of day `d`.
  `timedelta(days=k)` is `1440 * k`, `timedelta(hours=h)` is `60 * h`.
* The globally seeded random source (`random.seed(1337)` plus the module-level
  Mersenne twister) is modelled as an abstract stream `g : Nat → Nat` of raw
  draws together with a current position `s : Nat`; every call to
  `random.randint(a, b)` consumes exactly one draw and maps it into `[a, b]`.
* Tracked repository content is an abstract type `χ` with decidable equality;
  a mutation effect (the `action()` thunks of the phase lists) is an opaque
  function `χ → χ`, exactly as the spec treats the mutator registry.
* Fallible steps return an explicit error value instead of raising.
-/

/-- Model of `random.randint(a, b)`: consume one raw draw from the stream `g`
at position `s` and map it into the inclusive range `[a, b]`, advancing the
position by one. -/
def randint (g : Nat → Nat) (a b : Int) (s : Nat) : Int × Nat :=
  (a + (g s : Int) % (b - a + 1), s + 1)

/-- The `for i in range(count)` loop of `dates_between`
(src/auto_dev.py:76-83): at each step draw an hour jitter in `[9, 20]` and a
minute jitter in `[0, 59]`, form `dt = current + jitter`; if `dt` exceeds
`end_dt` (here `endMin`) replace it by `end_dt` minus a backoff of
`randint(1, 6)` hours; record `dt` and advance `current` by `step` days.
Returns the recorded dates together with the final stream position. -/
def datesLoop (g : Nat → Nat) (endMin step : Int) :
    Nat → Int → Nat → List Int × Nat
  | 0, _, s => ([], s)
  | n + 1, current, s =>
    let jh := randint g 9 20 s
    let jm := randint g 0 59 jh.2
    let dt0 := current + 60 * jh.1 + jm.1
    if endMin < dt0 then
      let b := randint g 1 6 jm.2
      let rest := datesLoop g endMin step n (current + 1440 * step) b.2
      ((endMin - 60 * b.1) :: rest.1, rest.2)
    else
      let rest := datesLoop g endMin step n (current + 1440 * step) jm.2
      (dt0 :: rest.1, rest.2)

/-- Model of `dates_between(start, end, count)` (src/auto_dev.py:67-86).
`startDay`/`endDay` are the parsed civil dates.  `total_days` is
`(end_dt - start_dt).days`; Python `//` is floor division, hence `Int.fdiv`.
The loop starts at `start_dt + timedelta(days=1)` and the result list is
sorted ascending in place (`dates.sort()`), modelled by `insertionSort`
(for `Int` with `≤`, the sorted permutation is unique, so any correct sort
coincides with CPython's). -/
def dates_between (g : Nat → Nat) (startDay endDay : Int) (count : Int)
    (s : Nat) : List Int × Nat :=
  let totalDays := endDay - startDay
  if count ≤ 0 then ([], s)
  else
    let step := max 1 (Int.fdiv totalDays count)
    let raw := datesLoop g (1440 * endDay) step count.toNat
      (1440 * startDay + 1440) s
    (List.insertionSort (· ≤ ·) raw.1, raw.2)

example : (dates_between (fun _ => 0) 0 10 2 0).1 = [1980, 9180] := by decide
example : (dates_between (fun _ => 0) 0 1 1 0).1 = [1380] := by decide

/-- One row of `github_accounts.csv` as loaded by `read_accounts`
(src/auto_dev.py:22-31): fields `username`, `email`, `token`. -/
structure Account where
  username : String
  email : String
  token : String
deriving DecidableEq

/-- Placeholder account used only to make list indexing total; `main` never
indexes out of range (the index is always reduced `% len(accounts)` with a
nonempty pool). -/
def defaultAccount : Account := ⟨"", "", ""⟩

/-- One commit record as created by `git commit` under the forced
`GIT_AUTHOR_DATE`/`GIT_COMMITTER_DATE` (both equal, src/auto_dev.py:40-41). -/
structure CommitRec where
  message : String
  whenMin : Int
  authorName : String
  authorEmail : String
deriving DecidableEq

/-- The version-control store as the orchestrator observes it: the content
snapshot of the last commit (`HEAD`) and the linear commit log. -/
structure GitRepo (χ : Type) where
  headContent : χ
  log : List CommitRec
deriving DecidableEq

/-- Model of `commit_all(message, when, name, email)` (src/auto_dev.py:39-49):
after `git add -A` the staged tree equals the whole working tree; `git diff
--cached --quiet` succeeds (returncode 0) exactly when the staged tree equals
`HEAD`, in which case no commit is made and `False` is returned; otherwise a
commit with the forced dates and author is appended and `True` is returned. -/
def commit_all {χ : Type} [DecidableEq χ] (message : String) (whenMin : Int)
    (name email : String) (staged : χ) (repo : GitRepo χ) : Bool × GitRepo χ :=
  if staged = repo.headContent then (false, repo)
  else (true, ⟨staged, repo.log ++ [⟨message, whenMin, name, email⟩]⟩)

/-- Observable events of a run of `main`, in program order. -/
inductive Ev where
  /-- `ensure_initial_gitignore` wrote the `.gitignore` file (only when it did
  not already exist, src/auto_dev.py:89-97). -/
  | gitignoreWrite : Ev
  /-- An action's mutation effect was invoked (`action()`,
  src/auto_dev.py:503), with the author selected for it. -/
  | actionApplied (author : String) (message : String) : Ev
  /-- A real (non-empty) commit was created (src/auto_dev.py:48). -/
  | commit (author : String) (whenMin : Int) (message : String) : Ev
  /-- The `origin` remote was added or re-pointed at the authenticated URL
  (src/auto_dev.py:524-528). -/
  | remoteSet (url : String) : Ev
  /-- `git branch -f master main` (src/auto_dev.py:531). -/
  | branchForce : Ev
  /-- `git push` of one refspec (src/auto_dev.py:534-535). -/
  | push (refspec : String) : Ev
deriving DecidableEq

/-- The ways the modelled `main` terminates abnormally. -/
inductive Err where
  /-- `read_accounts` raised `Need at least two accounts ...`
  (src/auto_dev.py:29-30). -/
  | needTwoAccounts : Err
  /-- The per-author invariant `cnt > 13` failed (src/auto_dev.py:514-516). -/
  | invariantViolation (user : String) (cnt : Nat) : Err
  /-- `next(a for a in accounts if a['username'] == 'nanonkt001')` found no
  account: an unhandled `StopIteration` (src/auto_dev.py:519). -/
  | noPrimaryAccount : Err
deriving DecidableEq

/-- Mutable state of the commit loop of `main` (src/auto_dev.py:495-511):
the working tree, the repository, the per-username commit counters
(`author_counts`, an insertion-ordered dict) and the round-robin index
(`author_index`). -/
structure OrchState (χ : Type) where
  worktree : χ
  repo : GitRepo χ
  counts : List (String × Nat)
  authorIndex : Nat

/-- `{a['username']: 0 for a in accounts}` (src/auto_dev.py:495): one entry
per distinct username, in first-occurrence order, initialised to 0. -/
def initCounts (accounts : List Account) : List (String × Nat) :=
  accounts.foldl
    (fun acc a => if acc.any (fun p => p.1 = a.username) then acc
      else acc ++ [(a.username, 0)]) []

/-- `author_counts[u] += 1`: add one to the (first, and in a dict unique)
entry whose key is `u`; other entries are untouched. -/
def bumpCount (u : String) : List (String × Nat) → List (String × Nat)
  | [] => []
  | (v, n) :: rest =>
    if v = u then (v, n + 1) :: rest else (v, n) :: bumpCount u rest

/-- One iteration of the inner commit loop (src/auto_dev.py:501-511): run the
action's effect, pick the author `accounts[author_index % len(accounts)]`,
advance the index, commit via `commit_all` with the scheduled timestamp, and
on a real commit increment that author's counter.  Also returns the events
the iteration produced. -/
def runAction {χ : Type} [DecidableEq χ] (accounts : List Account)
    (st : OrchState χ) (message : String) (effect : χ → χ) (whenMin : Int) :
    OrchState χ × List Ev :=
  let wt := effect st.worktree
  let author := accounts.getD (st.authorIndex % accounts.length) defaultAccount
  let res := commit_all message whenMin author.username author.email wt st.repo
  (⟨wt, res.2,
    if res.1 then bumpCount author.username st.counts else st.counts,
    st.authorIndex + 1⟩,
   Ev.actionApplied author.username message ::
     if res.1 then [Ev.commit author.username whenMin message] else [])

/-- The inner loop over one phase's `(message, action)` pairs, each already
paired with its scheduled timestamp. -/
def runActions {χ : Type} [DecidableEq χ] (accounts : List Account) :
    OrchState χ → List (String × (χ → χ) × Int) → OrchState χ × List Ev
  | st, [] => (st, [])
  | st, (m, f, w) :: rest =>
    let out := runAction accounts st m f w
    let outs := runActions accounts out.1 rest
    (outs.1, out.2 ++ outs.2)

/-- The outer loop of `main` over `zip(phases, phase_dates)`
(src/auto_dev.py:499-511): each phase is its `(message, action)` list paired
with its timestamp list; `when = dates[c_idx]` is modelled with `getD`
(in `main` the two lists always have equal length, see
`dates_between_length_eq`). -/
def runPhases {χ : Type} [DecidableEq χ] (accounts : List Account) :
    OrchState χ → List (List (String × (χ → χ)) × List Int) →
      OrchState χ × List Ev
  | st, [] => (st, [])
  | st, (commits, dates) :: rest =>
    let acts := commits.enum.map (fun p => (p.2.1, p.2.2, dates.getD p.1 0))
    let out := runActions accounts st acts
    let outs := runPhases accounts out.1 rest
    (outs.1, out.2 ++ outs.2)

/-- The `for (start, end, commits) in phases: dates_between(...)` loop
(src/auto_dev.py:490-492), threading the shared random stream position. -/
def computePhaseDates (g : Nat → Nat) :
    List (Int × Int × Nat) → Nat → List (List Int) × Nat
  | [], s => ([], s)
  | (sd, ed, cnt) :: rest, s =>
    let d := dates_between g sd ed (cnt : Int) s
    let ds := computePhaseDates g rest d.2
    (d.1 :: ds.1, ds.2)

/-- The invariant enforcer (src/auto_dev.py:514-516): iterate
`author_counts.items()` in insertion order and report the first entry with
`cnt <= 13`; `none` means the check passed. -/
def checkAuthorCounts (counts : List (String × Nat)) : Option (String × Nat) :=
  counts.find? (fun p => p.2 ≤ 13)

/-- The username whose token is used for pushing (src/auto_dev.py:519). -/
def primaryUsername : String := "nanonkt001"

/-- The whole commit-producing part of `main`: build the per-phase timestamp
lists with `dates_between` (sharing one random stream), then run every phase
from the initial orchestrator state (counters all zero, `author_index = 0`).
`phases` carries each phase's `(startDay, endDay, commits)`. -/
def mainPhaseRun {χ : Type} [DecidableEq χ] (g : Nat → Nat) (s0 : Nat)
    (accounts : List Account)
    (phases : List (Int × Int × List (String × (χ → χ))))
    (wt0 : χ) (repo0 : GitRepo χ) : OrchState χ × List Ev :=
  let phaseDates :=
    (computePhaseDates g (phases.map (fun p => (p.1, p.2.1, p.2.2.length))) s0).1
  runPhases accounts ⟨wt0, repo0, initCounts accounts, 0⟩
    ((phases.map (fun p => p.2.2)).zip phaseDates)

/-- Model of `main()` (src/auto_dev.py:471-537).  Inputs: the random stream
`g` with starting position `s0` (abstracting `random.seed(1337)`), whether
`.gitignore` already exists together with the opaque effect of writing it,
the parsed account rows, the phase table, and the initial working tree and
repository.  Output: the ordered event trace of the run and `some err` when
the run terminates with an uncaught exception.

Order of operations follows the source: `ensure_initial_gitignore` first,
then the `len(accounts) < 2` check inside `read_accounts`, then scheduling
and the commit loop, then the `cnt > 13` invariant, then primary-account
lookup, remote URL construction, branch forcing and the two pushes. -/
def mainModel {χ : Type} [DecidableEq χ] (g : Nat → Nat) (s0 : Nat)
    (gitignoreExists : Bool) (giEffect : χ → χ) (accounts : List Account)
    (phases : List (Int × Int × List (String × (χ → χ))))
    (initContent : χ) (repo0 : GitRepo χ) : List Ev × Option Err :=
  let ev0 : List Ev := if gitignoreExists then [] else [Ev.gitignoreWrite]
  let wt0 := if gitignoreExists then initContent else giEffect initContent
  if accounts.length < 2 then (ev0, some Err.needTwoAccounts)
  else
    let out := mainPhaseRun g s0 accounts phases wt0 repo0
    match checkAuthorCounts out.1.counts with
    | some p => (ev0 ++ out.2, some (Err.invariantViolation p.1 p.2))
    | none =>
      match accounts.find? (fun a => a.username = primaryUsername) with
      | none => (ev0 ++ out.2, some Err.noPrimaryAccount)
      | some primary =>
        (ev0 ++ out.2 ++
          [Ev.remoteSet ("https://" ++ primary.token ++
            "@github.com/nanonkt001/MintLite.git"),
           Ev.branchForce, Ev.push "main:main", Ev.push "master:master"],
         none)

/-- The authors assigned to successive actions, read off the event trace. -/
def authorTrace (evs : List Ev) : List String :=
  evs.filterMap (fun e => match e with
    | Ev.actionApplied a _ => some a
    | _ => none)

/-! ### Helper lemmas about the scheduler -/

lemma randint_mem {g : Nat → Nat} {a b : Int} (s : Nat) (hab : a ≤ b) :
    a ≤ (randint g a b s).1 ∧ (randint g a b s).1 ≤ b := by
  have h1 : 0 ≤ (g s : Int) % (b - a + 1) := Int.emod_nonneg _ (by omega)
  have h2 : (g s : Int) % (b - a + 1) < b - a + 1 :=
    Int.emod_lt_of_pos _ (by omega)
  simp only [randint]
  omega

lemma datesLoop_length (g : Nat → Nat) (endMin step : Int) (n : Nat) :
    ∀ (current : Int) (s : Nat),
      (datesLoop g endMin step n current s).1.length = n := by
  induction n with
  | zero => intro current s; rfl
  | succ n ih =>
    intro current s
    simp only [datesLoop]
    split
    · simp [ih]
    · simp [ih]

lemma datesLoop_bounds (g : Nat → Nat) (endMin step lo : Int)
    (hstep : 1 ≤ step) (hend : lo + 1440 ≤ endMin) (n : Nat) :
    ∀ (current : Int) (s : Nat), lo + 1440 ≤ current →
      ∀ t ∈ (datesLoop g endMin step n current s).1, lo < t ∧ t ≤ endMin := by
  induction n with
  | zero => intro current s _ t ht; simp [datesLoop] at ht
  | succ n ih =>
    intro current s hcur t ht
    have hjh := randint_mem (g := g) s (by norm_num : (9:Int) ≤ 20)
    have hjm := randint_mem (g := g) (randint g 9 20 s).2
      (by norm_num : (0:Int) ≤ 59)
    simp only [datesLoop] at ht
    split at ht
    · have hb := randint_mem (g := g)
        (randint g 0 59 (randint g 9 20 s).2).2 (by norm_num : (1:Int) ≤ 6)
      simp only [List.mem_cons] at ht
      rcases ht with rfl | ht
      · omega
      · exact ih (current + 1440 * step) _ (by omega) t ht
    · simp only [List.mem_cons] at ht
      rcases ht with rfl | ht
      · omega
      · exact ih (current + 1440 * step) _ (by omega) t ht

lemma datesLoop_congr (g1 g2 : Nat → Nat) (endMin step : Int) (n : Nat) :
    ∀ (current : Int) (s : Nat), (∀ k, k < 3 * n → g1 (s + k) = g2 (s + k)) →
      datesLoop g1 endMin step n current s =
        datesLoop g2 endMin step n current s := by
  induction n with
  | zero => intro current s _; rfl
  | succ n ih =>
    intro current s hag
    have h0 : g1 s = g2 s := by
      have h := hag 0 (by omega); simpa using h
    have h1 : g1 (s + 1) = g2 (s + 1) := hag 1 (by omega)
    have h2 : g1 (s + 1 + 1) = g2 (s + 1 + 1) := hag 2 (by omega)
    have e2 : datesLoop g1 endMin step n (current + 1440 * step) (s + 1 + 1) =
        datesLoop g2 endMin step n (current + 1440 * step) (s + 1 + 1) := by
      refine ih _ _ (fun k hk => ?_)
      have h := hag (2 + k) (by omega)
      have e : s + (2 + k) = s + 1 + 1 + k := by omega
      rwa [e] at h
    have e3 : datesLoop g1 endMin step n (current + 1440 * step)
          (s + 1 + 1 + 1) =
        datesLoop g2 endMin step n (current + 1440 * step) (s + 1 + 1 + 1) := by
      refine ih _ _ (fun k hk => ?_)
      have h := hag (3 + k) (by omega)
      have e : s + (3 + k) = s + 1 + 1 + 1 + k := by omega
      rwa [e] at h
    simp only [datesLoop, randint, h0, h1, h2, e2, e3]

/-! ### Claims about the scheduler -/

/-- C1: for every start date, end date, random stream/position and
`count >= 2`, the sequence returned by `dates_between` is monotone
non-decreasing: `timestamps[i] <= timestamps[i+1]` for every `i` with
`i + 1` in range. -/
theorem dates_between_sorted (g : Nat → Nat) (startDay endDay count : Int)
    (s : Nat) (hc : 2 ≤ count) :
    ∀ (i : Nat) (h : i + 1 < (dates_between g startDay endDay count s).1.length),
      (dates_between g startDay endDay count s).1.get ⟨i, by omega⟩ ≤
        (dates_between g startDay endDay count s).1.get ⟨i + 1, h⟩ := by
  intro i h
  have hs : (dates_between g startDay endDay count s).1.Sorted (· ≤ ·) := by
    simp only [dates_between]
    split
    · simp
    · exact List.sorted_insertionSort _ _
  exact hs.rel_get_of_lt (by simp [Fin.lt_def])

/-- Witness for `dates_between_sorted`: a concrete two-element schedule. -/
theorem dates_between_sorted_witness :
    (dates_between (fun _ => 0) 0 10 2 0).1.get ⟨0, by decide⟩ ≤
      (dates_between (fun _ => 0) 0 10 2 0).1.get ⟨1, by decide⟩ :=
  dates_between_sorted (fun _ => 0) 0 10 2 0 (by decide) 0 (by decide)

/-- C2: when the start date is strictly before the end date and
`count >= 1`, every timestamp `t` returned by `dates_between` satisfies
`start < t <= end` (in minutes: `1440 * startDay < t ≤ 1440 * endDay`); in
particular clamped timestamps stay inside the window. -/
theorem dates_between_bounded (g : Nat → Nat) (startDay endDay count : Int)
    (s : Nat) (hse : startDay < endDay) (hc : 1 ≤ count) :
    ∀ t ∈ (dates_between g startDay endDay count s).1,
      1440 * startDay < t ∧ t ≤ 1440 * endDay := by
  intro t ht
  simp only [dates_between] at ht
  rw [if_neg (by omega)] at ht
  simp only [List.mem_insertionSort] at ht
  exact datesLoop_bounds g (1440 * endDay)
    (max 1 (Int.fdiv (endDay - startDay) count)) (1440 * startDay)
    (le_max_left _ _) (by omega) count.toNat _ s (by omega) t ht

/-- Witness for `dates_between_bounded`: the one-day window `[0, 1]` with a
single (clamped) timestamp `1380`. -/
theorem dates_between_bounded_witness :
    1440 * (0:Int) < 1380 ∧ (1380:Int) ≤ 1440 * 1 :=
  dates_between_bounded (fun _ => 0) 0 1 1 0 (by decide) (by decide)
    1380 (by decide)

/-- C3: for every `count >= 0`, `dates_between` returns a sequence of length
exactly `count`; in particular for `count = 0` it returns `[]`. -/
theorem dates_between_length_eq (g : Nat → Nat) (startDay endDay count : Int)
    (s : Nat) (hc : 0 ≤ count) :
    ((dates_between g startDay endDay count s).1.length : Int) = count ∧
      (count = 0 → (dates_between g startDay endDay count s).1 = []) := by
  constructor
  · simp only [dates_between]
    split
    · simp only [List.length_nil, Nat.cast_zero]
      omega
    · simp only [List.length_insertionSort, datesLoop_length]
      omega
  · rintro rfl
    simp [dates_between]

/-- Witness for `dates_between_length_eq` at `count = 0`. -/
theorem dates_between_length_witness :
    ((dates_between (fun _ => 0) 0 5 0 0).1.length : Int) = 0 ∧
      (dates_between (fun _ => 0) 0 5 0 0).1 = [] :=
  ⟨(dates_between_length_eq (fun _ => 0) 0 5 0 0 (by decide)).1,
   (dates_between_length_eq (fun _ => 0) 0 5 0 0 (by decide)).2 rfl⟩

/-- C9: `dates_between` is deterministic in the seeded random source: two
runs with the same start, end, count and the same random-source state (the
same stream of raw draws on the at most `3 * count` consumed positions)
return identical timestamp sequences (and final positions). -/
theorem dates_between_deterministic (g1 g2 : Nat → Nat)
    (startDay endDay count : Int) (s : Nat)
    (hagree : ∀ k, k < 3 * count.toNat → g1 (s + k) = g2 (s + k)) :
    dates_between g1 startDay endDay count s =
      dates_between g2 startDay endDay count s := by
  simp only [dates_between]
  split
  · rfl
  · rw [datesLoop_congr g1 g2 (1440 * endDay)
      (max 1 (Int.fdiv (endDay - startDay) count)) count.toNat
      (1440 * startDay + 1440) s hagree]

/-- Witness for `dates_between_deterministic`: two streams that agree on the
first `3 * 2` draws but differ later produce the same schedule. -/
theorem dates_between_deterministic_witness :
    dates_between (fun _ => 0) 0 10 2 0 =
      dates_between (fun k => if k < 6 then 0 else 99) 0 10 2 0 :=
  dates_between_deterministic (fun _ => 0) (fun k => if k < 6 then 0 else 99)
    0 10 2 0 (by decide)

/-! ### Helper lemmas about the orchestrator -/

/-- Total number of commits recorded across all counters. -/
def countsTotal (counts : List (String × Nat)) : Nat :=
  (counts.map Prod.snd).sum

lemma bumpCount_total (u : String) :
    ∀ counts : List (String × Nat), u ∈ counts.map Prod.fst →
      countsTotal (bumpCount u counts) = countsTotal counts + 1 := by
  intro counts hmem
  induction counts with
  | nil => simp at hmem
  | cons p rest ih =>
    obtain ⟨v, n⟩ := p
    by_cases hv : v = u
    · simp [bumpCount, hv, countsTotal]
      omega
    · have hmem' : u ∈ rest.map Prod.fst := by
        simpa [hv, Ne.symm hv] using hmem
      simp only [bumpCount, if_neg hv, countsTotal, List.map_cons,
        List.sum_cons]
      have := ih hmem'
      simp only [countsTotal] at this
      omega

lemma checkAuthorCounts_eq_none_iff (counts : List (String × Nat)) :
    checkAuthorCounts counts = none ↔ ∀ p ∈ counts, 13 < p.2 := by
  rw [checkAuthorCounts, List.find?_eq_none]
  constructor
  · intro h p hp
    have := h p hp
    simpa using this
  · intro h p hp
    simpa using h p hp

lemma checkAuthorCounts_violation (counts : List (String × Nat))
    (p : String × Nat) (hp : p ∈ counts) (hle : p.2 ≤ 13) :
    ∃ q, checkAuthorCounts counts = some q ∧ q ∈ counts ∧ q.2 ≤ 13 := by
  have hsome : (counts.find? (fun p => p.2 ≤ 13)).isSome := by
    rw [List.find?_isSome]
    exact ⟨p, hp, by simpa using hle⟩
  obtain ⟨q, hq⟩ := Option.isSome_iff_exists.mp hsome
  refine ⟨q, hq, List.mem_of_find?_eq_some hq, ?_⟩
  have := List.find?_some hq
  simpa using this

/-! ### Claims about the invariant enforcer and the commit orchestrator -/

/-- C5: the invariant check (src/auto_dev.py:514-516) passes exactly when
every identity's final counter is strictly greater than the threshold 13;
whenever some identity's count is at most 13 — including exactly 13 — it
reports a violating identity together with its (≤ 13) count, taken from the
counters map. -/
theorem invariant_check_strict (counts : List (String × Nat)) :
    (checkAuthorCounts counts = none ↔ ∀ p ∈ counts, 13 < p.2) ∧
      (∀ p ∈ counts, p.2 ≤ 13 →
        ∃ q, checkAuthorCounts counts = some q ∧ q ∈ counts ∧ q.2 ≤ 13) :=
  ⟨checkAuthorCounts_eq_none_iff counts,
   fun p hp hle => checkAuthorCounts_violation counts p hp hle⟩

/-- Witness for `invariant_check_strict`: all counters above 13 pass; a
counter equal to exactly 13 is reported. -/
theorem invariant_check_strict_witness :
    (checkAuthorCounts [("a", 14), ("b", 20)] = none ↔
        ∀ p ∈ [("a", 14), ("b", 20)], 13 < p.2) ∧
      ∃ q, checkAuthorCounts [("a", 14), ("b", 13)] = some q ∧
        q ∈ [("a", 14), ("b", 13)] ∧ q.2 ≤ 13 :=
  ⟨(invariant_check_strict [("a", 14), ("b", 20)]).1,
   (invariant_check_strict [("a", 14), ("b", 13)]).2 ("b", 13) (by decide)
     (by decide)⟩

/-- C4: (skip) when an action's effect produces no observable change versus
the last commit — the staged tree equals `HEAD` — the orchestrator iteration
skips: `commit_all` returns `false`, the repository is unchanged and no
counter is incremented.  (twice-in-a-row) for an idempotent effect that does
change the tree on first application, running the same action twice in a row
creates exactly one commit and increments the counters exactly once. -/
theorem orchestrator_idempotent_skip {χ : Type} [DecidableEq χ]
    (accounts : List Account) :
    (∀ (st : OrchState χ) (message : String) (effect : χ → χ) (whenMin : Int),
      effect st.worktree = st.repo.headContent →
        (∀ name email : String,
          (commit_all message whenMin name email (effect st.worktree)
            st.repo).1 = false) ∧
        (runAction accounts st message effect whenMin).1.repo = st.repo ∧
        (runAction accounts st message effect whenMin).1.counts = st.counts) ∧
    (∀ (st : OrchState χ) (m1 m2 : String) (effect : χ → χ) (w1 w2 : Int),
      effect (effect st.worktree) = effect st.worktree →
      effect st.worktree ≠ st.repo.headContent →
      (accounts.getD (st.authorIndex % accounts.length)
          defaultAccount).username ∈ st.counts.map Prod.fst →
      (runAction accounts (runAction accounts st m1 effect w1).1 m2 effect
          w2).1.repo.log.length = st.repo.log.length + 1 ∧
        countsTotal (runAction accounts (runAction accounts st m1 effect
          w1).1 m2 effect w2).1.counts = countsTotal st.counts + 1) := by
  constructor
  · intro st message effect whenMin hsame
    refine ⟨fun name email => ?_, ?_, ?_⟩
    · simp [commit_all, hsame]
    · simp [runAction, commit_all, hsame]
    · simp [runAction, commit_all, hsame]
  · intro st m1 m2 effect w1 w2 hidem hne hmem
    have h1 : (runAction accounts st m1 effect w1).1 =
        ⟨effect st.worktree,
          ⟨effect st.worktree, st.repo.log ++
            [⟨m1, w1, (accounts.getD (st.authorIndex % accounts.length)
                defaultAccount).username,
              (accounts.getD (st.authorIndex % accounts.length)
                defaultAccount).email⟩]⟩,
          bumpCount (accounts.getD (st.authorIndex % accounts.length)
            defaultAccount).username st.counts,
          st.authorIndex + 1⟩ := by
      simp [runAction, commit_all, hne]
    rw [h1]
    set S1 : OrchState χ :=
      ⟨effect st.worktree,
        ⟨effect st.worktree, st.repo.log ++
          [⟨m1, w1, (accounts.getD (st.authorIndex % accounts.length)
              defaultAccount).username,
            (accounts.getD (st.authorIndex % accounts.length)
              defaultAccount).email⟩]⟩,
        bumpCount (accounts.getD (st.authorIndex % accounts.length)
          defaultAccount).username st.counts,
        st.authorIndex + 1⟩ with hS1
    have h2 : (runAction accounts S1 m2 effect w2).1.repo = S1.repo ∧
        (runAction accounts S1 m2 effect w2).1.counts = S1.counts := by
      constructor <;> simp [runAction, commit_all, hS1, hidem]
    refine ⟨?_, ?_⟩
    · rw [h2.1, hS1]
      simp
    · rw [h2.2, hS1]
      exact bumpCount_total _ _ hmem

/-- Witness for `orchestrator_idempotent_skip`: a two-account pool over
`χ = Nat`; a no-op effect is skipped, and a constant (idempotent) effect run
twice yields one commit and one counter increment. -/
theorem orchestrator_idempotent_skip_witness :
    ((commit_all "m" 5 "alice" "a@x" ((fun _ => (0 : Nat))
        (OrchState.worktree ⟨0, ⟨0, []⟩, [("alice", 0), ("bob", 0)], 0⟩))
        (OrchState.repo ⟨0, ⟨0, []⟩, [("alice", 0), ("bob", 0)], 0⟩)).1 =
          false ∧
      (runAction [⟨"alice", "a@x", "t1"⟩, ⟨"bob", "b@x", "t2"⟩]
        (⟨0, ⟨0, []⟩, [("alice", 0), ("bob", 0)], 0⟩ : OrchState Nat) "m"
        (fun _ => 0) 5).1.counts = [("alice", 0), ("bob", 0)]) ∧
    ((runAction [⟨"alice", "a@x", "t1"⟩, ⟨"bob", "b@x", "t2"⟩]
        (runAction [⟨"alice", "a@x", "t1"⟩, ⟨"bob", "b@x", "t2"⟩]
          (⟨0, ⟨0, []⟩, [("alice", 0), ("bob", 0)], 0⟩ : OrchState Nat) "m1"
          (fun _ => 1) 5).1 "m2" (fun _ => 1) 6).1.repo.log.length = 1 ∧
      countsTotal (runAction [⟨"alice", "a@x", "t1"⟩, ⟨"bob", "b@x", "t2"⟩]
        (runAction [⟨"alice", "a@x", "t1"⟩, ⟨"bob", "b@x", "t2"⟩]
          (⟨0, ⟨0, []⟩, [("alice", 0), ("bob", 0)], 0⟩ : OrchState Nat) "m1"
          (fun _ => 1) 5).1 "m2" (fun _ => 1) 6).1.counts = 1) := by
  have h := orchestrator_idempotent_skip (χ := Nat)
    [⟨"alice", "a@x", "t1"⟩, ⟨"bob", "b@x", "t2"⟩]
  refine ⟨⟨(h.1 ⟨0, ⟨0, []⟩, [("alice", 0), ("bob", 0)], 0⟩ "m" (fun _ => 0)
    5 rfl).1 "alice" "a@x", (h.1 ⟨0, ⟨0, []⟩, [("alice", 0), ("bob", 0)], 0⟩
    "m" (fun _ => 0) 5 rfl).2.2⟩, ?_, ?_⟩
  · exact ((h.2 ⟨0, ⟨0, []⟩, [("alice", 0), ("bob", 0)], 0⟩ "m1" "m2"
      (fun _ => 1) 5 6 rfl (by decide) (by decide)).1).trans (by decide)
  · exact ((h.2 ⟨0, ⟨0, []⟩, [("alice", 0), ("bob", 0)], 0⟩ "m1" "m2"
      (fun _ => 1) 5 6 rfl (by decide) (by decide)).2).trans (by decide)

/-! ### Round-robin rotation lemmas -/

lemma countP_range_mod (m j : Nat) (hm : 0 < m) (hj : j < m) :
    ∀ k : Nat, (List.range k).countP (fun i => i % m = j) =
      k / m + (if j < k % m then 1 else 0) := by
  intro k
  induction k with
  | zero => simp
  | succ k ih =>
    rw [List.range_succ, List.countP_append, ih]
    have hq := Nat.div_add_mod k m
    have hr : k % m < m := Nat.mod_lt k hm
    rcases Nat.lt_or_ge (k % m + 1) m with hlt | hge
    · have e : k + 1 = m * (k / m) + (k % m + 1) := by omega
      have emod : (k + 1) % m = k % m + 1 := by
        rw [e, Nat.mul_add_mod, Nat.mod_eq_of_lt hlt]
      have ediv : (k + 1) / m = k / m := by
        rw [e, Nat.mul_add_div hm, Nat.div_eq_of_lt hlt]
        omega
      rw [emod, ediv]
      simp only [List.countP_cons, List.countP_nil, decide_eq_true_eq]
      split_ifs <;> omega
    · have e : k + 1 = m * (k / m + 1) + 0 := by
        have hml : m * (k / m + 1) = m * (k / m) + m := by ring
        omega
      have emod : (k + 1) % m = 0 := by
        rw [e, Nat.mul_add_mod, Nat.zero_mod]
      have ediv : (k + 1) / m = k / m + 1 := by
        rw [e, Nat.mul_add_div hm]
        simp
      rw [emod, ediv]
      simp only [List.countP_cons, List.countP_nil, decide_eq_true_eq]
      split_ifs <;> omega

lemma countP_range_mod_floor_ceil (m j k : Nat) (hm : 0 < m) (hj : j < m) :
    (List.range k).countP (fun i => i % m = j) = k / m ∨
      (List.range k).countP (fun i => i % m = j) = (k + m - 1) / m := by
  rw [countP_range_mod m j hm hj k]
  by_cases h : j < k % m
  · right
    have hr : k % m < m := Nat.mod_lt k hm
    have hq := Nat.div_add_mod k m
    have e : k + m - 1 = m * (k / m + 1) + (k % m - 1) := by
      have hml : m * (k / m + 1) = m * (k / m) + m := by ring
      omega
    rw [if_pos h, e, Nat.mul_add_div hm,
      Nat.div_eq_of_lt (show k % m - 1 < m by omega)]
  · left
    rw [if_neg h]
    omega

lemma authorTrace_append (l1 l2 : List Ev) :
    authorTrace (l1 ++ l2) = authorTrace l1 ++ authorTrace l2 :=
  List.filterMap_append _ _ _

lemma authorTrace_runAction {χ : Type} [DecidableEq χ]
    (accounts : List Account) (st : OrchState χ) (m : String) (f : χ → χ)
    (w : Int) :
    authorTrace (runAction accounts st m f w).2 =
      [(accounts.getD (st.authorIndex % accounts.length)
        defaultAccount).username] := by
  rw [runAction]
  split <;> rfl

lemma runAction_authorIndex {χ : Type} [DecidableEq χ]
    (accounts : List Account) (st : OrchState χ) (m : String) (f : χ → χ)
    (w : Int) :
    (runAction accounts st m f w).1.authorIndex = st.authorIndex + 1 := rfl

lemma authorTrace_runActions {χ : Type} [DecidableEq χ]
    (accounts : List Account) :
    ∀ (acts : List (String × (χ → χ) × Int)) (st : OrchState χ),
      (runActions accounts st acts).1.authorIndex =
          st.authorIndex + acts.length ∧
        authorTrace (runActions accounts st acts).2 =
          (List.range acts.length).map (fun i =>
            (accounts.getD ((st.authorIndex + i) % accounts.length)
              defaultAccount).username) := by
  intro acts
  induction acts with
  | nil => intro st; simp [runActions, authorTrace]
  | cons a rest ih =>
    intro st
    obtain ⟨m, f, w⟩ := a
    simp only [runActions]
    have hidx := runAction_authorIndex accounts st m f w
    constructor
    · rw [(ih (runAction accounts st m f w).1).1, hidx]
      simp only [List.length_cons]
      omega
    · rw [authorTrace_append, authorTrace_runAction,
        (ih (runAction accounts st m f w).1).2, hidx]
      rw [List.length_cons, List.range_succ_eq_map, List.map_cons,
        List.map_map, List.singleton_append]
      congr 1
      refine List.map_congr_left (fun i _ => ?_)
      have e : st.authorIndex + 1 + i = st.authorIndex + (i + 1) := by
        omega
      simp [Function.comp, Nat.succ_eq_add_one, e]

lemma authorTrace_runPhases {χ : Type} [DecidableEq χ]
    (accounts : List Account) :
    ∀ (phs : List (List (String × (χ → χ)) × List Int)) (st : OrchState χ),
      (runPhases accounts st phs).1.authorIndex =
          st.authorIndex + (phs.map (fun p => p.1.length)).sum ∧
        authorTrace (runPhases accounts st phs).2 =
          (List.range (phs.map (fun p => p.1.length)).sum).map (fun i =>
            (accounts.getD ((st.authorIndex + i) % accounts.length)
              defaultAccount).username) := by
  intro phs
  induction phs with
  | nil => intro st; simp [runPhases, authorTrace]
  | cons ph rest ih =>
    intro st
    obtain ⟨commits, dates⟩ := ph
    simp only [runPhases]
    set acts := commits.enum.map
      (fun p => (p.2.1, p.2.2, dates.getD p.1 0)) with hacts
    have hlen : acts.length = commits.length := by
      simp [hacts]
    have hA := authorTrace_runActions accounts acts st
    have hR := ih (runActions accounts st acts).1
    constructor
    · rw [hR.1, hA.1, hlen]
      simp only [List.map_cons, List.sum_cons]
      omega
    · rw [authorTrace_append, hA.2, hR.2, hA.1, hlen]
      simp only [List.map_cons, List.sum_cons]
      rw [List.range_add, List.map_append, List.map_map]
      congr 1
      refine List.map_congr_left (fun i _ => ?_)
      have e : st.authorIndex + commits.length + i =
          st.authorIndex + (commits.length + i) := by omega
      simp [Function.comp, e]

lemma username_getD_inj (accounts : List Account)
    (hnd : (accounts.map Account.username).Nodup) {n j : Nat}
    (hn : n < accounts.length) (hj : j < accounts.length) :
    (accounts.getD n defaultAccount).username =
      (accounts.getD j defaultAccount).username ↔ n = j := by
  rw [List.getD_eq_getElem accounts defaultAccount hn,
    List.getD_eq_getElem accounts defaultAccount hj]
  have hn' : n < (accounts.map Account.username).length := by simpa
  have hj' : j < (accounts.map Account.username).length := by simpa
  constructor
  · intro h
    have h' : (accounts.map Account.username).get ⟨n, hn'⟩ =
        (accounts.map Account.username).get ⟨j, hj'⟩ := by
      simpa using h
    simpa using (hnd.get_inj_iff).mp h'
  · rintro rfl
    rfl

/-- C6: round-robin attribution.  Starting from rotation index 0 and running
any phase list (`k` actions in total, pool of size `m ≥ 2` with distinct
usernames): the rotation counter ends at exactly `k` (it advances on every
action, across phase boundaries, regardless of which actions commit); the
`i`-th action overall is attributed to `pool[i % m]`; and each identity is
selected exactly `⌊k/m⌋` or `⌈k/m⌉` (`= (k+m-1)/m`) times. -/
theorem rotation_fairness {χ : Type} [DecidableEq χ] (accounts : List Account)
    (st : OrchState χ) (phs : List (List (String × (χ → χ)) × List Int))
    (hm : 2 ≤ accounts.length)
    (hnd : (accounts.map Account.username).Nodup)
    (h0 : st.authorIndex = 0) :
    (runPhases accounts st phs).1.authorIndex =
        (phs.map (fun p => p.1.length)).sum ∧
      authorTrace (runPhases accounts st phs).2 =
        (List.range (phs.map (fun p => p.1.length)).sum).map (fun i =>
          (accounts.getD (i % accounts.length) defaultAccount).username) ∧
      ∀ j, j < accounts.length →
        (authorTrace (runPhases accounts st phs).2).count
              ((accounts.getD j defaultAccount).username) =
            (phs.map (fun p => p.1.length)).sum / accounts.length ∨
          (authorTrace (runPhases accounts st phs).2).count
              ((accounts.getD j defaultAccount).username) =
            ((phs.map (fun p => p.1.length)).sum + accounts.length - 1) /
              accounts.length := by
  have h := authorTrace_runPhases accounts phs st
  rw [h0] at h
  simp only [Nat.zero_add] at h
  refine ⟨h.1, h.2, ?_⟩
  intro j hj
  rw [h.2, List.count_eq_countP, List.countP_map]
  have hfun : ((fun x => x == (accounts.getD j defaultAccount).username) ∘
        fun i => (accounts.getD (i % accounts.length)
          defaultAccount).username) =
      fun i => decide (i % accounts.length = j) := by
    funext i
    simp only [Function.comp_apply, Bool.beq_eq_decide_eq, decide_eq_decide]
    exact username_getD_inj accounts hnd
      (Nat.mod_lt i (by omega)) hj
  rw [hfun]
  exact countP_range_mod_floor_ceil accounts.length j
    (phs.map (fun p => p.1.length)).sum (by omega) hj

/-- Witness for `rotation_fairness`: pool `[alice, bob]`, one phase of two
actions followed by a phase of one action (`k = 3`): `alice` (index 0) is
selected `⌈3/2⌉ = 2` times. -/
theorem rotation_fairness_witness :
    (authorTrace (runPhases [⟨"alice", "a@x", "t1"⟩, ⟨"bob", "b@x", "t2"⟩]
          (⟨0, ⟨0, []⟩, [("alice", 0), ("bob", 0)], 0⟩ : OrchState Nat)
          [([("m1", fun n => n + 1), ("m2", fun n => n + 1)], [10, 20]),
           ([("m3", fun n => n + 1)], [30])]).2).count
          (([⟨"alice", "a@x", "t1"⟩,
            (⟨"bob", "b@x", "t2"⟩ : Account)].getD 0
              defaultAccount).username) =
        ([([("m1", fun (n : Nat) => n + 1), ("m2", fun n => n + 1)],
            ([10, 20] : List Int)),
          ([("m3", fun n => n + 1)], [30])].map
            (fun p => p.1.length)).sum / 2 ∨
      (authorTrace (runPhases [⟨"alice", "a@x", "t1"⟩, ⟨"bob", "b@x", "t2"⟩]
          (⟨0, ⟨0, []⟩, [("alice", 0), ("bob", 0)], 0⟩ : OrchState Nat)
          [([("m1", fun n => n + 1), ("m2", fun n => n + 1)], [10, 20]),
           ([("m3", fun n => n + 1)], [30])]).2).count
          (([⟨"alice", "a@x", "t1"⟩,
            (⟨"bob", "b@x", "t2"⟩ : Account)].getD 0
              defaultAccount).username) =
        (([([("m1", fun (n : Nat) => n + 1), ("m2", fun n => n + 1)],
            ([10, 20] : List Int)),
          ([("m3", fun n => n + 1)], [30])].map
            (fun p => p.1.length)).sum + 2 - 1) / 2 :=
  (rotation_fairness [⟨"alice", "a@x", "t1"⟩, ⟨"bob", "b@x", "t2"⟩]
    (⟨0, ⟨0, []⟩, [("alice", 0), ("bob", 0)], 0⟩ : OrchState Nat)
    [([("m1", fun n => n + 1), ("m2", fun n => n + 1)], [10, 20]),
     ([("m3", fun n => n + 1)], [30])]
    (by decide) (by decide) rfl).2.2 0 (by decide)

/-! ### Shape of the commit-loop event trace -/

lemma runAction_events_cases {χ : Type} [DecidableEq χ]
    (accounts : List Account) (st : OrchState χ) (m : String) (f : χ → χ)
    (w : Int) :
    ∀ e ∈ (runAction accounts st m f w).2,
      (∃ a msg, e = Ev.actionApplied a msg) ∨
        ∃ a t msg, e = Ev.commit a t msg := by
  intro e he
  simp only [runAction, List.mem_cons] at he
  rcases he with rfl | he
  · exact Or.inl ⟨_, _, rfl⟩
  · split at he
    · simp only [List.mem_singleton] at he
      subst he
      exact Or.inr ⟨_, _, _, rfl⟩
    · simp at he

lemma runActions_events_cases {χ : Type} [DecidableEq χ]
    (accounts : List Account) :
    ∀ (acts : List (String × (χ → χ) × Int)) (st : OrchState χ),
      ∀ e ∈ (runActions accounts st acts).2,
        (∃ a msg, e = Ev.actionApplied a msg) ∨
          ∃ a t msg, e = Ev.commit a t msg := by
  intro acts
  induction acts with
  | nil => intro st e he; simp [runActions] at he
  | cons a rest ih =>
    intro st e he
    obtain ⟨m, f, w⟩ := a
    simp only [runActions, List.mem_append] at he
    rcases he with he | he
    · exact runAction_events_cases accounts st m f w e he
    · exact ih _ e he

lemma runPhases_events_cases {χ : Type} [DecidableEq χ]
    (accounts : List Account) :
    ∀ (phs : List (List (String × (χ → χ)) × List Int)) (st : OrchState χ),
      ∀ e ∈ (runPhases accounts st phs).2,
        (∃ a msg, e = Ev.actionApplied a msg) ∨
          ∃ a t msg, e = Ev.commit a t msg := by
  intro phs
  induction phs with
  | nil => intro st e he; simp [runPhases] at he
  | cons ph rest ih =>
    intro st e he
    obtain ⟨commits, dates⟩ := ph
    simp only [runPhases, List.mem_append] at he
    rcases he with he | he
    · exact runActions_events_cases accounts _ st e he
    · exact ih _ e he

lemma mainPhaseRun_events_cases {χ : Type} [DecidableEq χ] (g : Nat → Nat)
    (s0 : Nat) (accounts : List Account)
    (phases : List (Int × Int × List (String × (χ → χ))))
    (wt0 : χ) (repo0 : GitRepo χ) :
    ∀ e ∈ (mainPhaseRun g s0 accounts phases wt0 repo0).2,
      (∃ a msg, e = Ev.actionApplied a msg) ∨
        ∃ a t msg, e = Ev.commit a t msg := by
  intro e he
  rw [mainPhaseRun] at he
  exact runPhases_events_cases accounts _ _ e he

/-! ### Claims about the control flow of `main` -/

/-- C7 counterexample: `ensure_initial_gitignore()` runs *before*
`read_accounts` (src/auto_dev.py:473-474).  With no `.gitignore` present and
an empty identity pool, the run does fail with the configuration error, but
the failing trace already contains a mutation of tracked content: the
bootstrap write of `.gitignore`.  So the failure is *not* surfaced before
any mutation of tracked content is attempted. -/
theorem config_error_after_gitignore_write :
    (mainModel (fun _ => 0) 0 false (fun n => n + 1) [] [] (0 : Nat)
        ⟨0, []⟩).2 = some Err.needTwoAccounts ∧
      Ev.gitignoreWrite ∈ (mainModel (fun _ => 0) 0 false (fun n => n + 1)
        [] [] (0 : Nat) ⟨0, []⟩).1 := by decide

/-- C7 (amended): if the pool yields fewer than 2 identities, the run fails
fast with the configuration error before any phase action is invoked and
before any commit is created — the trace contains no action and no commit
event — and when the `.gitignore` file already exists the trace is empty.
The only mutation that can precede the failure is the `.gitignore`
bootstrap write. -/
theorem config_error_fail_fast {χ : Type} [DecidableEq χ] (g : Nat → Nat)
    (s0 : Nat) (gi : Bool) (giEffect : χ → χ) (accounts : List Account)
    (phases : List (Int × Int × List (String × (χ → χ))))
    (initC : χ) (repo0 : GitRepo χ) (hlen : accounts.length < 2) :
    (mainModel g s0 gi giEffect accounts phases initC repo0).2 =
        some Err.needTwoAccounts ∧
      (∀ a m, Ev.actionApplied a m ∉
        (mainModel g s0 gi giEffect accounts phases initC repo0).1) ∧
      (∀ a w m, Ev.commit a w m ∉
        (mainModel g s0 gi giEffect accounts phases initC repo0).1) ∧
      (gi = true →
        (mainModel g s0 gi giEffect accounts phases initC repo0).1 = []) := by
  refine ⟨?_, fun a m => ?_, fun a w m => ?_, fun hgi => ?_⟩
  · simp [mainModel, if_pos hlen]
  · simp only [mainModel, if_pos hlen]
    cases gi <;> simp
  · simp only [mainModel, if_pos hlen]
    cases gi <;> simp
  · subst hgi
    simp [mainModel, if_pos hlen]

/-- Witness for `config_error_fail_fast`: a one-account pool. -/
theorem config_error_fail_fast_witness :
    (mainModel (fun _ => 0) 0 true (fun n => n + 1) [⟨"x", "y", "z"⟩] []
        (0 : Nat) ⟨0, []⟩).2 = some Err.needTwoAccounts ∧
      Ev.actionApplied "x" "m" ∉ (mainModel (fun _ => 0) 0 true
        (fun n => n + 1) [⟨"x", "y", "z"⟩] [] (0 : Nat) ⟨0, []⟩).1 ∧
      (mainModel (fun _ => 0) 0 true (fun n => n + 1) [⟨"x", "y", "z"⟩] []
        (0 : Nat) ⟨0, []⟩).1 = [] :=
  ⟨(config_error_fail_fast (fun _ => 0) 0 true (fun n => n + 1)
      [⟨"x", "y", "z"⟩] [] (0 : Nat) ⟨0, []⟩ (by decide)).1,
   (config_error_fail_fast (fun _ => 0) 0 true (fun n => n + 1)
      [⟨"x", "y", "z"⟩] [] (0 : Nat) ⟨0, []⟩ (by decide)).2.1 "x" "m",
   (config_error_fail_fast (fun _ => 0) 0 true (fun n => n + 1)
      [⟨"x", "y", "z"⟩] [] (0 : Nat) ⟨0, []⟩ (by decide)).2.2.2 rfl⟩

/-- C8: the remote endpoint is constructed and the pushes performed only
after the per-identity invariant check passes: in any run in which some
identity's final commit count is at or below the threshold 13, the event
trace contains no remote construction and no push. -/
theorem remote_only_after_invariant {χ : Type} [DecidableEq χ]
    (g : Nat → Nat) (s0 : Nat) (gi : Bool) (giEffect : χ → χ)
    (accounts : List Account)
    (phases : List (Int × Int × List (String × (χ → χ))))
    (initC : χ) (repo0 : GitRepo χ)
    (hviol : ∃ p ∈ (mainPhaseRun g s0 accounts phases
        (if gi then initC else giEffect initC) repo0).1.counts, p.2 ≤ 13) :
    (∀ u, Ev.remoteSet u ∉
        (mainModel g s0 gi giEffect accounts phases initC repo0).1) ∧
      ∀ r, Ev.push r ∉
        (mainModel g s0 gi giEffect accounts phases initC repo0).1 := by
  obtain ⟨p, hp, hle⟩ := hviol
  by_cases hlen : accounts.length < 2
  · simp only [mainModel, if_pos hlen]
    constructor <;> intro x <;> cases gi <;> simp
  · obtain ⟨q, hq, -, -⟩ := checkAuthorCounts_violation _ p hp hle
    simp only [mainModel, if_neg hlen, hq]
    constructor <;> intro x hmem <;>
      simp only [List.mem_append] at hmem <;>
      rcases hmem with hmem | hmem
    · revert hmem; cases gi <;> simp
    · rcases mainPhaseRun_events_cases g s0 accounts phases _ repo0 _ hmem
        with ⟨a, msg, h⟩ | ⟨a, t, msg, h⟩ <;> simp at h
    · revert hmem; cases gi <;> simp
    · rcases mainPhaseRun_events_cases g s0 accounts phases _ repo0 _ hmem
        with ⟨a, msg, h⟩ | ⟨a, t, msg, h⟩ <;> simp at h

/-- Witness for `remote_only_after_invariant`: two accounts, no phases, so
both counters stay 0 ≤ 13, and neither a remote nor a push event occurs. -/
theorem remote_only_after_invariant_witness :
    Ev.remoteSet "u" ∉ (mainModel (fun _ => 0) 0 true (fun n => n + 1)
        [⟨"alice", "a@x", "t1"⟩, ⟨"bob", "b@x", "t2"⟩] [] (0 : Nat)
        ⟨0, []⟩).1 ∧
      Ev.push "r" ∉ (mainModel (fun _ => 0) 0 true (fun n => n + 1)
        [⟨"alice", "a@x", "t1"⟩, ⟨"bob", "b@x", "t2"⟩] [] (0 : Nat)
        ⟨0, []⟩).1 :=
  ⟨(remote_only_after_invariant (fun _ => 0) 0 true (fun n => n + 1)
      [⟨"alice", "a@x", "t1"⟩, ⟨"bob", "b@x", "t2"⟩] [] (0 : Nat) ⟨0, []⟩
      ⟨("alice", 0), by decide, by decide⟩).1 "u",
   (remote_only_after_invariant (fun _ => 0) 0 true (fun n => n + 1)
      [⟨"alice", "a@x", "t1"⟩, ⟨"bob", "b@x", "t2"⟩] [] (0 : Nat) ⟨0, []⟩
      ⟨("alice", 0), by decide, by decide⟩).2 "r"⟩

/-- C10: after the invariant check passes, `main` selects the primary
identity by the fixed username `nanonkt001` (src/auto_dev.py:519).  For any
pool containing no identity with that exact username, the run aborts with an
unhandled error at that point: all commit-phase events are already in the
trace, but no remote URL is constructed and no branch is pushed. -/
theorem missing_primary_aborts {χ : Type} [DecidableEq χ] (g : Nat → Nat)
    (s0 : Nat) (gi : Bool) (giEffect : χ → χ) (accounts : List Account)
    (phases : List (Int × Int × List (String × (χ → χ))))
    (initC : χ) (repo0 : GitRepo χ)
    (hlen : 2 ≤ accounts.length)
    (hok : checkAuthorCounts (mainPhaseRun g s0 accounts phases
        (if gi then initC else giEffect initC) repo0).1.counts = none)
    (hno : ∀ a ∈ accounts, a.username ≠ primaryUsername) :
    (mainModel g s0 gi giEffect accounts phases initC repo0).2 =
        some Err.noPrimaryAccount ∧
      (mainModel g s0 gi giEffect accounts phases initC repo0).1 =
        (if gi then ([] : List Ev) else [Ev.gitignoreWrite]) ++
          (mainPhaseRun g s0 accounts phases
            (if gi then initC else giEffect initC) repo0).2 ∧
      (∀ u, Ev.remoteSet u ∉
        (mainModel g s0 gi giEffect accounts phases initC repo0).1) ∧
      ∀ r, Ev.push r ∉
        (mainModel g s0 gi giEffect accounts phases initC repo0).1 := by
  have hfind : accounts.find? (fun a => a.username = primaryUsername)
      = none := by
    rw [List.find?_eq_none]
    intro a ha
    simpa using hno a ha
  have hlen' : ¬ accounts.length < 2 := by omega
  refine ⟨?_, ?_, fun u hmem => ?_, fun r hmem => ?_⟩
  · simp only [mainModel, if_neg hlen', hok, hfind]
  · simp only [mainModel, if_neg hlen', hok, hfind]
  · simp only [mainModel, if_neg hlen', hok, hfind,
      List.mem_append] at hmem
    rcases hmem with hmem | hmem
    · revert hmem; cases gi <;> simp
    · rcases mainPhaseRun_events_cases g s0 accounts phases _ repo0 _ hmem
        with ⟨a, msg, h⟩ | ⟨a, t, msg, h⟩ <;> simp at h
  · simp only [mainModel, if_neg hlen', hok, hfind,
      List.mem_append] at hmem
    rcases hmem with hmem | hmem
    · revert hmem; cases gi <;> simp
    · rcases mainPhaseRun_events_cases g s0 accounts phases _ repo0 _ hmem
        with ⟨a, msg, h⟩ | ⟨a, t, msg, h⟩ <;> simp at h

/-- Witness for `missing_primary_aborts`: a pool `[alice, bob]` (no
`nanonkt001`) and one phase of 28 always-changing actions, so each identity
ends with 14 > 13 commits and the invariant check passes; the run still
aborts with the unhandled primary-lookup error and never pushes. -/
theorem missing_primary_aborts_witness :
    (mainModel (fun _ => 0) 0 true (fun n => n + 1)
        [⟨"alice", "a@x", "t1"⟩, ⟨"bob", "b@x", "t2"⟩]
        [((0 : Int), (100 : Int),
          List.replicate 28 (("m", fun n => n + 1) : String × (Nat → Nat)))]
        (0 : Nat) ⟨0, []⟩).2 = some Err.noPrimaryAccount ∧
      Ev.remoteSet "u" ∉ (mainModel (fun _ => 0) 0 true (fun n => n + 1)
        [⟨"alice", "a@x", "t1"⟩, ⟨"bob", "b@x", "t2"⟩]
        [((0 : Int), (100 : Int),
          List.replicate 28 (("m", fun n => n + 1) : String × (Nat → Nat)))]
        (0 : Nat) ⟨0, []⟩).1 ∧
      Ev.push "main:main" ∉ (mainModel (fun _ => 0) 0 true (fun n => n + 1)
        [⟨"alice", "a@x", "t1"⟩, ⟨"bob", "b@x", "t2"⟩]
        [((0 : Int), (100 : Int),
          List.replicate 28 (("m", fun n => n + 1) : String × (Nat → Nat)))]
        (0 : Nat) ⟨0, []⟩).1 :=
  ⟨(missing_primary_aborts (fun _ => 0) 0 true (fun n => n + 1)
      [⟨"alice", "a@x", "t1"⟩, ⟨"bob", "b@x", "t2"⟩]
      [((0 : Int), (100 : Int),
        List.replicate 28 (("m", fun n => n + 1) : String × (Nat → Nat)))]
      (0 : Nat) ⟨0, []⟩ (by decide) (by decide) (by decide)).1,
   (missing_primary_aborts (fun _ => 0) 0 true (fun n => n + 1)
      [⟨"alice", "a@x", "t1"⟩, ⟨"bob", "b@x", "t2"⟩]
      [((0 : Int), (100 : Int),
        List.replicate 28 (("m", fun n => n + 1) : String × (Nat → Nat)))]
      (0 : Nat) ⟨0, []⟩ (by decide) (by decide) (by decide)).2.2.1 "u",
   (missing_primary_aborts (fun _ => 0) 0 true (fun n => n + 1)
      [⟨"alice", "a@x", "t1"⟩, ⟨"bob", "b@x", "t2"⟩]
      [((0 : Int), (100 : Int),
        List.replicate 28 (("m", fun n => n + 1) : String × (Nat → Nat)))]
      (0 : Nat) ⟨0, []⟩ (by decide) (by decide) (by decide)).2.2.2
     "main:main"⟩
